import Mathlib

/-!
Verification of the request-handling core of an LLM inference proxy.

The Go sources are shallowly embedded: mutex-protected mutable structures
become pure functions from state to state, `time.Time` / `time.Duration`
values become integer nanosecond counts, Go errors become `Option`/sum
types, and the thunks passed to the resilience combinators become explicit
outcome sequences.
-/

set_option maxHeartbeats 1000000

namespace LLMProxy

/-! ## Circuit breaker (pkg/resilience/circuitbreaker.go) -/

/-- The three circuit states, mirroring the `CircuitState` constants. -/
inductive CircuitState where
  | StateClosed
  | StateOpen
  | StateHalfOpen
deriving DecidableEq

/-- State of a `CircuitBreaker`.  Times are integer nanosecond instants;
counters are integers as in the Go struct. -/
structure CircuitBreaker where
  state : CircuitState
  failureThreshold : Int
  consecutiveFailures : Int
  cooldown : Int
  lastFailure : Int
  totalSuccesses : Int
  totalFailures : Int
  totalRejected : Int
deriving DecidableEq

/-- Go `NewCircuitBreaker`: non-positive config values fall back to the
defaults (threshold 5, cooldown 30 s = 3e10 ns). -/
def NewCircuitBreaker (failureThreshold cooldown : Int) : CircuitBreaker :=
  { state := .StateClosed
    failureThreshold := if failureThreshold ≤ 0 then 5 else failureThreshold
    consecutiveFailures := 0
    cooldown := if cooldown ≤ 0 then 30000000000 else cooldown
    lastFailure := 0
    totalSuccesses := 0
    totalFailures := 0
    totalRejected := 0 }

/-- Go `allowRequest`, with `time.Since(lastFailure)` rendered as
`now - lastFailure`.  Returns the (possibly mutated) breaker and the
admission decision. -/
def CircuitBreaker.allowRequest (cb : CircuitBreaker) (now : Int) :
    CircuitBreaker × Bool :=
  match cb.state with
  | .StateClosed => (cb, true)
  | .StateOpen =>
      if now - cb.lastFailure > cb.cooldown then
        ({ cb with state := .StateHalfOpen }, true)
      else
        (cb, false)
  | .StateHalfOpen => (cb, true)

/-- Go `recordFailure` (called with the mutex held); `now` is the
`time.Now()` written to `lastFailure`. -/
def CircuitBreaker.recordFailure (cb : CircuitBreaker) (now : Int) :
    CircuitBreaker :=
  if cb.consecutiveFailures + 1 ≥ cb.failureThreshold then
    { cb with
      consecutiveFailures := cb.consecutiveFailures + 1
      totalFailures := cb.totalFailures + 1
      lastFailure := now
      state := .StateOpen }
  else
    { cb with
      consecutiveFailures := cb.consecutiveFailures + 1
      totalFailures := cb.totalFailures + 1
      lastFailure := now }

/-- Go `recordSuccess` (called with the mutex held). -/
def CircuitBreaker.recordSuccess (cb : CircuitBreaker) : CircuitBreaker :=
  if cb.state = .StateHalfOpen then
    { cb with
      totalSuccesses := cb.totalSuccesses + 1
      consecutiveFailures := 0
      state := .StateClosed }
  else
    { cb with
      totalSuccesses := cb.totalSuccesses + 1
      consecutiveFailures := 0 }

/-- Result of one `Execute` call: `rejected` means `ErrCircuitOpen` was
returned and the wrapped thunk was never invoked; `completed ok` means the
thunk ran and returned success (`ok = true`) or an error. -/
inductive ExecOutcome where
  | rejected
  | completed (ok : Bool)
deriving DecidableEq

/-- Go `Execute`: admission check, optional thunk invocation, outcome
recording.  `now` is the admission-time clock, `now2` the clock at which a
failure would be recorded, `thunkOk` the thunk's outcome (consulted only
if the call is admitted). -/
def CircuitBreaker.Execute (cb : CircuitBreaker) (now now2 : Int)
    (thunkOk : Bool) : CircuitBreaker × ExecOutcome :=
  if !(cb.allowRequest now).2 then
    ({ (cb.allowRequest now).1 with
        totalRejected := (cb.allowRequest now).1.totalRejected + 1 },
      .rejected)
  else if thunkOk then
    ((cb.allowRequest now).1.recordSuccess, .completed true)
  else
    ((cb.allowRequest now).1.recordFailure now2, .completed false)

/-- Go `State`: reports HalfOpen whenever the stored state is Open but the
cooldown has elapsed, without mutating. -/
def CircuitBreaker.StateObserved (cb : CircuitBreaker) (now : Int) :
    CircuitState :=
  if cb.state = .StateOpen ∧ now - cb.lastFailure > cb.cooldown then
    .StateHalfOpen
  else
    cb.state

/-- Breaker states reachable by sequences of serialized `Execute` calls:
each admitted call's outcome is recorded before any other admission or
recording occurs.  The `allowStep` constructor exposes the stored state
right after an admission check committed (observable because the lock is
released while the wrapped call runs).  This is the restricted model of
the amended C9 claim; the general mutex-granularity behaviour, where
other calls' critical sections interleave between one call's admission
and its recording, is `CBFineReachable` below. -/
inductive CBReachable (f c : Int) : CircuitBreaker → Prop where
  | init : CBReachable f c (NewCircuitBreaker f c)
  | allowStep (cb : CircuitBreaker) (now : Int) :
      CBReachable f c cb → CBReachable f c (cb.allowRequest now).1
  | step (cb : CircuitBreaker) (now now2 : Int) (ok : Bool) :
      CBReachable f c cb → CBReachable f c (cb.Execute now now2 ok).1

/-- Breaker states reachable at mutex granularity: each constructor is
one critical section of the Go code (an `allowRequest` admission, the
rejection-counter bump, or an admitted call's `recordSuccess` /
`recordFailure`), and the natural number counts admitted calls whose
outcome has not yet been recorded.  Because the mutex is released
between a call's admission and its recording, other calls' sections may
interleave there; every state derivable here is reachable by some
schedule of concurrent `Execute` calls. -/
inductive CBFineReachable (f c : Int) : CircuitBreaker → Nat → Prop where
  | init : CBFineReachable f c (NewCircuitBreaker f c) 0
  | admitted (cb : CircuitBreaker) (n : Nat) (now : Int) :
      CBFineReachable f c cb n → (cb.allowRequest now).2 = true →
      CBFineReachable f c (cb.allowRequest now).1 (n + 1)
  | rejectedCall (cb : CircuitBreaker) (n : Nat) (now : Int) :
      CBFineReachable f c cb n → (cb.allowRequest now).2 = false →
      CBFineReachable f c
        { (cb.allowRequest now).1 with
          totalRejected := (cb.allowRequest now).1.totalRejected + 1 } n
  | recordedSuccess (cb : CircuitBreaker) (n : Nat) :
      CBFineReachable f c cb (n + 1) →
      CBFineReachable f c cb.recordSuccess n
  | recordedFailure (cb : CircuitBreaker) (n : Nat) (now2 : Int) :
      CBFineReachable f c cb (n + 1) →
      CBFineReachable f c (cb.recordFailure now2) n

/-- The breaker invariant: the threshold is positive, and a stored Open or
HalfOpen state implies the consecutive-failure counter has reached the
threshold. -/
def CBInv (cb : CircuitBreaker) : Prop :=
  1 ≤ cb.failureThreshold ∧
  ((cb.state = .StateOpen ∨ cb.state = .StateHalfOpen) →
    cb.failureThreshold ≤ cb.consecutiveFailures)

lemma allowRequest_closed {cb : CircuitBreaker} (now : Int)
    (h : cb.state = .StateClosed) : cb.allowRequest now = (cb, true) := by
  unfold CircuitBreaker.allowRequest
  rw [h]

lemma allowRequest_open_cold {cb : CircuitBreaker} {now : Int}
    (h : cb.state = .StateOpen) (hcd : ¬(now - cb.lastFailure > cb.cooldown)) :
    cb.allowRequest now = (cb, false) := by
  unfold CircuitBreaker.allowRequest
  rw [h]
  exact if_neg hcd

lemma allowRequest_open_elapsed {cb : CircuitBreaker} {now : Int}
    (h : cb.state = .StateOpen) (hcd : now - cb.lastFailure > cb.cooldown) :
    cb.allowRequest now = ({ cb with state := .StateHalfOpen }, true) := by
  unfold CircuitBreaker.allowRequest
  rw [h]
  exact if_pos hcd

lemma allowRequest_halfOpen {cb : CircuitBreaker} (now : Int)
    (h : cb.state = .StateHalfOpen) : cb.allowRequest now = (cb, true) := by
  unfold CircuitBreaker.allowRequest
  rw [h]

lemma recordFailure_def (cb : CircuitBreaker) (now2 : Int) :
    cb.recordFailure now2 =
      if cb.consecutiveFailures + 1 ≥ cb.failureThreshold then
        { cb with
          consecutiveFailures := cb.consecutiveFailures + 1
          totalFailures := cb.totalFailures + 1
          lastFailure := now2
          state := .StateOpen }
      else
        { cb with
          consecutiveFailures := cb.consecutiveFailures + 1
          totalFailures := cb.totalFailures + 1
          lastFailure := now2 } :=
  rfl

lemma recordSuccess_def (cb : CircuitBreaker) :
    cb.recordSuccess =
      if cb.state = .StateHalfOpen then
        { cb with
          totalSuccesses := cb.totalSuccesses + 1
          consecutiveFailures := 0
          state := .StateClosed }
      else
        { cb with
          totalSuccesses := cb.totalSuccesses + 1
          consecutiveFailures := 0 } :=
  rfl

lemma cbInv_allowRequest {cb : CircuitBreaker} (now : Int) (h : CBInv cb) :
    CBInv (cb.allowRequest now).1 := by
  obtain ⟨h1, h2⟩ := h
  cases hs : cb.state with
  | StateClosed =>
      rw [allowRequest_closed now hs]
      exact ⟨h1, h2⟩
  | StateOpen =>
      by_cases hcd : now - cb.lastFailure > cb.cooldown
      · rw [allowRequest_open_elapsed hs hcd]
        exact ⟨h1, fun _ => h2 (Or.inl hs)⟩
      · rw [allowRequest_open_cold hs hcd]
        exact ⟨h1, h2⟩
  | StateHalfOpen =>
      rw [allowRequest_halfOpen now hs]
      exact ⟨h1, h2⟩

lemma allowRequest_true_not_open {cb : CircuitBreaker} {now : Int}
    (h : (cb.allowRequest now).2 = true) :
    (cb.allowRequest now).1.state ≠ .StateOpen := by
  cases hs : cb.state with
  | StateClosed =>
      rw [allowRequest_closed now hs, hs]
      simp
  | StateOpen =>
      by_cases hcd : now - cb.lastFailure > cb.cooldown
      · rw [allowRequest_open_elapsed hs hcd]
        simp
      · rw [allowRequest_open_cold hs hcd] at h
        simp at h
  | StateHalfOpen =>
      rw [allowRequest_halfOpen now hs, hs]
      simp

lemma cbInv_recordFailure {cb : CircuitBreaker} (now2 : Int) (h : CBInv cb) :
    CBInv (cb.recordFailure now2) := by
  obtain ⟨h1, h2⟩ := h
  rw [recordFailure_def]
  by_cases hth : cb.consecutiveFailures + 1 ≥ cb.failureThreshold
  · rw [if_pos hth]
    exact ⟨h1, fun _ => hth⟩
  · rw [if_neg hth]
    refine ⟨h1, fun hst => ?_⟩
    have := h2 hst
    omega

lemma cbInv_recordSuccess {cb : CircuitBreaker}
    (hno : cb.state ≠ .StateOpen) (h : CBInv cb) :
    CBInv cb.recordSuccess := by
  obtain ⟨h1, _⟩ := h
  rw [recordSuccess_def]
  by_cases hs : cb.state = .StateHalfOpen
  · rw [if_pos hs]
    refine ⟨h1, fun hst => ?_⟩
    rcases hst with hst | hst <;> simp at hst
  · rw [if_neg hs]
    refine ⟨h1, fun hst => ?_⟩
    rcases hst with hst | hst
    · exact absurd hst hno
    · exact absurd hst hs

lemma cbInv_execute {cb : CircuitBreaker} (now now2 : Int) (ok : Bool)
    (h : CBInv cb) : CBInv (cb.Execute now now2 ok).1 := by
  unfold CircuitBreaker.Execute
  have hallow := cbInv_allowRequest now h
  by_cases hadm : (cb.allowRequest now).2 = true
  · rw [hadm]
    cases ok with
    | true =>
        simp only [Bool.not_true, Bool.false_eq_true, if_false, if_true]
        exact cbInv_recordSuccess (allowRequest_true_not_open hadm) hallow
    | false =>
        simp only [Bool.not_true, Bool.false_eq_true, if_false]
        exact cbInv_recordFailure now2 hallow
  · rw [Bool.not_eq_true] at hadm
    rw [hadm]
    simp only [Bool.not_false, if_true]
    exact ⟨hallow.1, hallow.2⟩

lemma cbInv_reachable {f c : Int} {cb : CircuitBreaker}
    (h : CBReachable f c cb) : CBInv cb := by
  induction h with
  | init =>
      refine ⟨?_, fun hst => ?_⟩
      · simp only [NewCircuitBreaker]
        split <;> omega
      · simp [NewCircuitBreaker] at hst
  | allowStep cb now _ ih => exact cbInv_allowRequest now ih
  | step cb now now2 ok _ ih => exact cbInv_execute now now2 ok ih

/-- The stored Open state with the consecutive-failure counter at zero,
reached at mutex granularity (threshold 2, cooldown 1): three calls are
admitted while Closed, two failures are recorded (tripping the breaker
to Open), and the remaining call's success is then recorded — zeroing
the counter without closing, since `recordSuccess` closes only from
HalfOpen. -/
def cbOpenZeroW : CircuitBreaker :=
  { state := .StateOpen
    failureThreshold := 2
    consecutiveFailures := 0
    cooldown := 1
    lastFailure := 0
    totalSuccesses := 1
    totalFailures := 2
    totalRejected := 0 }

/-- The stored HalfOpen state with the counter at zero, reached from
`cbOpenZeroW` by an admission check after the cooldown. -/
def cbHalfOpenZeroW : CircuitBreaker :=
  { cbOpenZeroW with state := .StateHalfOpen }

/-- C9 counterexample: at mutex granularity the claimed invariant is
false.  The interleaving admit, admit, admit, fail, fail, success
reaches the stored state Open with `consecutiveFailures = 0 < 2 =
failureThreshold`; a later admission reaches stored HalfOpen with the
counter still zero, and recording a single failure there leaves the
state HalfOpen instead of returning it to Open. -/
theorem c9_counterexample :
    CBFineReachable 2 1 cbOpenZeroW 0 ∧
    cbOpenZeroW.state = CircuitState.StateOpen ∧
    ¬(cbOpenZeroW.failureThreshold ≤ cbOpenZeroW.consecutiveFailures) ∧
    CBFineReachable 2 1 cbHalfOpenZeroW 1 ∧
    cbHalfOpenZeroW.state = CircuitState.StateHalfOpen ∧
    (cbHalfOpenZeroW.recordFailure 2).state ≠ CircuitState.StateOpen := by
  have h0 : CBFineReachable 2 1 (NewCircuitBreaker 2 1) 0 :=
    CBFineReachable.init
  have h1 := CBFineReachable.admitted _ _ 0 h0 (by decide)
  have h2 := CBFineReachable.admitted _ _ 0 h1 (by decide)
  have h3 := CBFineReachable.admitted _ _ 0 h2 (by decide)
  have h4 := CBFineReachable.recordedFailure _ _ 0 h3
  have h5 := CBFineReachable.recordedFailure _ _ 0 h4
  have h6 := CBFineReachable.recordedSuccess _ _ h5
  have hbad : CBFineReachable 2 1 cbOpenZeroW 0 := h6
  have h7 := CBFineReachable.admitted _ _ 2 hbad (by decide)
  have hhalf : CBFineReachable 2 1 cbHalfOpenZeroW 1 := h7
  exact ⟨hbad, rfl, by decide, hhalf, rfl, by decide⟩

/-- C9 amended: under serialized `Execute` calls — each admitted call's
outcome recorded before any other admission or recording, with stored
states right after an admission check included — every reachable stored
Open or HalfOpen state has the consecutive-failure counter at least the
failure threshold, and recording a single failure while HalfOpen drives
the stored state back to Open even though `recordFailure` only sets Open
when the counter reaches the threshold.  (At mutex granularity, with
interleaving between one call's admission and another's recording, both
parts fail: see the counterexample.) -/
theorem c9_open_halfopen_counter_at_threshold {f c : Int}
    {cb : CircuitBreaker} (h : CBReachable f c cb) (now now2 : Int) :
    ((cb.state = .StateOpen ∨ cb.state = .StateHalfOpen) →
      cb.failureThreshold ≤ cb.consecutiveFailures) ∧
    (cb.state = .StateHalfOpen →
      ((cb.Execute now now2 false).1).state = .StateOpen) := by
  obtain ⟨h1, h2⟩ := cbInv_reachable h
  refine ⟨h2, fun hs => ?_⟩
  have hcf : cb.failureThreshold ≤ cb.consecutiveFailures := h2 (Or.inr hs)
  unfold CircuitBreaker.Execute
  rw [allowRequest_halfOpen now hs]
  simp only [Bool.not_true, Bool.false_eq_true, if_false]
  rw [recordFailure_def, if_pos (by omega)]

/-- Concrete reachable breaker used by the C9 witness: one failure trips a
threshold-1 breaker to Open, then an admission check after the cooldown
moves the stored state to HalfOpen. -/
def cbHalfOpenW : CircuitBreaker :=
  (((NewCircuitBreaker 1 1).Execute 0 0 false).1.allowRequest 2).1

theorem c9_witness :
    ((cbHalfOpenW.state = .StateOpen ∨ cbHalfOpenW.state = .StateHalfOpen) →
      cbHalfOpenW.failureThreshold ≤ cbHalfOpenW.consecutiveFailures) ∧
    (cbHalfOpenW.state = .StateHalfOpen →
      ((cbHalfOpenW.Execute 3 3 false).1).state = .StateOpen) :=
  c9_open_halfopen_counter_at_threshold
    (CBReachable.allowStep _ 2 (CBReachable.step _ 0 0 false CBReachable.init)) 3 3

/-- C4: with the stored state Open and the cooldown not elapsed, `Execute`
returns the `CircuitOpen` rejection, bumps the rejection counter and never
invokes the thunk; with the cooldown elapsed, the admission check moves
the state to HalfOpen and the call runs as a probe. -/
theorem c4_open_rejects_or_probes (cb : CircuitBreaker) (now now2 : Int)
    (ok : Bool) :
    (cb.state = .StateOpen → ¬(now - cb.lastFailure > cb.cooldown) →
      cb.Execute now now2 ok =
        ({ cb with totalRejected := cb.totalRejected + 1 },
          ExecOutcome.rejected)) ∧
    (cb.state = .StateOpen → now - cb.lastFailure > cb.cooldown →
      (cb.allowRequest now).1.state = .StateHalfOpen ∧
      (cb.Execute now now2 ok).2 = .completed ok) := by
  constructor
  · intro hs hcd
    unfold CircuitBreaker.Execute
    rw [allowRequest_open_cold hs hcd]
    rfl
  · intro hs hcd
    constructor
    · rw [allowRequest_open_elapsed hs hcd]
    · unfold CircuitBreaker.Execute
      rw [allowRequest_open_elapsed hs hcd]
      cases ok <;> rfl

/-- Concrete Open breaker used by the C4 witness. -/
def cbOpenW : CircuitBreaker :=
  { state := .StateOpen
    failureThreshold := 5
    consecutiveFailures := 5
    cooldown := 10
    lastFailure := 0
    totalSuccesses := 0
    totalFailures := 5
    totalRejected := 0 }

theorem c4_witness :
    cbOpenW.Execute 5 5 true =
      ({ cbOpenW with totalRejected := cbOpenW.totalRejected + 1 },
        ExecOutcome.rejected) ∧
    ((cbOpenW.allowRequest 20).1.state = .StateHalfOpen ∧
      (cbOpenW.Execute 20 20 true).2 = .completed true) :=
  ⟨(c4_open_rejects_or_probes cbOpenW 5 5 true).1 rfl (by decide),
   (c4_open_rejects_or_probes cbOpenW 20 20 true).2 rfl (by decide)⟩

/-! ## Server-error classification (pkg/resilience/circuitbreaker.go) -/

/-- Go `searchString`: the naive substring scan over byte indices
`0 ≤ i ≤ len(s) - len(substr)`, comparing `s[i:i+len(substr)]` against
`substr`.  Strings are modelled as character lists. -/
def searchString (s substr : List Char) : Bool :=
  (List.range (s.length - substr.length + 1)).any fun i =>
    (s.drop i).take substr.length == substr

/-- Go `contains`: length guard plus `searchString`. -/
def containsSub (s substr : List Char) : Bool :=
  decide (substr.length ≤ s.length) && searchString s substr

/-- The status-code substrings scanned by `IsServerError`. -/
def serverErrorCodes : List (List Char) :=
  [['4', '2', '9'], ['5', '0', '0'], ['5', '0', '2'],
   ['5', '0', '3'], ['5', '0', '4']]

/-- Go `IsServerError`: `nil` errors are not server errors; otherwise the
error text is scanned for any of the five status-code substrings. -/
def IsServerError (err : Option (List Char)) : Bool :=
  match err with
  | none => false
  | some errMsg => serverErrorCodes.any fun code => containsSub errMsg code

lemma containsSub_iff_isInfix (s substr : List Char) :
    containsSub s substr = true ↔ substr <:+: s := by
  constructor
  · intro h
    rw [containsSub, Bool.and_eq_true] at h
    obtain ⟨-, hs⟩ := h
    rw [searchString, List.any_eq_true] at hs
    obtain ⟨i, -, hp⟩ := hs
    rw [beq_iff_eq] at hp
    rw [← hp]
    have hpre := List.take_prefix substr.length (s.drop i)
    have hsuf := List.drop_suffix i s
    exact (hpre.isInfix).trans (hsuf.isInfix)
  · rintro ⟨t, u, rfl⟩
    rw [containsSub, Bool.and_eq_true]
    refine ⟨by simp [List.length_append]; omega, ?_⟩
    rw [searchString, List.any_eq_true]
    refine ⟨t.length, ?_, ?_⟩
    · rw [List.mem_range]
      simp [List.length_append]
      omega
    · rw [List.append_assoc, List.drop_left, List.take_left, beq_self_eq_true]

/-- C8: `IsServerError` returns false on a nil error, and on a non-nil
error it returns true exactly when the error text contains one of the
substrings 429, 500, 502, 503, 504. -/
theorem c8_isServerError_iff_code_infix :
    IsServerError none = false ∧
    ∀ s : List Char,
      (IsServerError (some s) = true ↔
        ∃ code ∈ serverErrorCodes, code <:+: s) := by
  refine ⟨rfl, fun s => ?_⟩
  rw [IsServerError, List.any_eq_true]
  constructor
  · rintro ⟨code, hmem, hc⟩
    exact ⟨code, hmem, (containsSub_iff_isInfix s code).1 hc⟩
  · rintro ⟨code, hmem, hinf⟩
    exact ⟨code, hmem, (containsSub_iff_isInfix s code).2 hinf⟩

/-! ## Retry controller (pkg/resilience/retry.go) -/

/-- Go `RetryConfig`; delays are integer nanoseconds as in `time.Duration`. -/
structure RetryConfig where
  MaxRetries : Int
  BaseDelay : Int
  MaxDelay : Int
deriving DecidableEq

/-- Go `DefaultRetryConfig`: 3 retries, 500 ms base, 30 s cap. -/
def DefaultRetryConfig : RetryConfig :=
  { MaxRetries := 3
    BaseDelay := 500000000
    MaxDelay := 30000000000 }

/-- The possible results of `Retry`: success, the two context-cancellation
errors, the non-retryable early return, and the final
`max retries exceeded` error wrapping the last error (which is `none`
when the loop never ran because `MaxRetries` was negative). -/
inductive RetryOutcome where
  | ok
  | cancelledBefore
  | cancelledDuringBackoff
  | nonRetryable (e : List Char)
  | maxRetriesExceeded (e : Option (List Char))
deriving DecidableEq

/-- The retry loop.  `fn i` is the outcome of the i-th thunk invocation
(`none` = success), `done i` whether the context is observed cancelled in
the check before attempt `i`, `sleepCancel i` whether it fires during the
backoff sleep after attempt `i`.  Arguments: attempt index, remaining
loop iterations, invocation count so far, and `lastErr`.  Returns the
total number of thunk invocations and the outcome. -/
def retryAux (fn : Nat → Option (List Char)) (done sleepCancel : Nat → Bool)
    (maxRetries : Int) :
    Nat → Nat → Nat → Option (List Char) → Nat × RetryOutcome
  | _, 0, count, lastErr => (count, .maxRetriesExceeded lastErr)
  | attempt, fuel + 1, count, _ =>
    if done attempt then
      (count, .cancelledBefore)
    else
      match fn attempt with
      | none => (count + 1, .ok)
      | some e =>
        if (attempt : Int) = maxRetries then
          (count + 1, .maxRetriesExceeded (some e))
        else if !IsServerError (some e) then
          (count + 1, .nonRetryable e)
        else if sleepCancel attempt then
          (count + 1, .cancelledDuringBackoff)
        else
          retryAux fn done sleepCancel maxRetries
            (attempt + 1) fuel (count + 1) (some e)

/-- Go `Retry`: the loop runs attempts `0 .. MaxRetries`, so it has
`(MaxRetries + 1).toNat` iterations available. -/
def Retry (cfg : RetryConfig) (fn : Nat → Option (List Char))
    (done sleepCancel : Nat → Bool) : Nat × RetryOutcome :=
  retryAux fn done sleepCancel cfg.MaxRetries 0 (cfg.MaxRetries + 1).toNat
    0 none

lemma retryAux_count_le (fn : Nat → Option (List Char))
    (done sleepCancel : Nat → Bool) (maxRetries : Int) :
    ∀ (fuel attempt count : Nat) (lastErr : Option (List Char)),
      (retryAux fn done sleepCancel maxRetries attempt fuel count
        lastErr).1 ≤ count + fuel := by
  intro fuel
  induction fuel with
  | zero => intro attempt count lastErr; simp [retryAux]
  | succ fuel ih =>
      intro attempt count lastErr
      rw [retryAux]
      by_cases hd : done attempt
      · simp only [if_pos hd]; omega
      · simp only [if_neg hd]
        cases hfn : fn attempt with
        | none => simp
        | some e =>
            by_cases hm : (attempt : Int) = maxRetries
            · simp only [if_pos hm]; omega
            · simp only [if_neg hm]
              by_cases hre : !IsServerError (some e)
              · simp only [if_pos hre]; omega
              · simp only [if_neg hre]
                by_cases hsc : sleepCancel attempt
                · simp only [if_pos hsc]; omega
                · simp only [if_neg hsc]
                  have := ih (attempt + 1) (count + 1) (some e)
                  omega

/-- C6: with a non-negative retry budget, `Retry` invokes the thunk at
most `MaxRetries + 1` times. -/
theorem c6_retry_invocation_bound (cfg : RetryConfig)
    (fn : Nat → Option (List Char)) (done sleepCancel : Nat → Bool)
    (h : 0 ≤ cfg.MaxRetries) :
    ((Retry cfg fn done sleepCancel).1 : Int) ≤ cfg.MaxRetries + 1 := by
  have hb := retryAux_count_le fn done sleepCancel cfg.MaxRetries
    (cfg.MaxRetries + 1).toNat 0 0 none
  rw [Retry]
  omega

theorem c6_witness :
    (0 ≤ DefaultRetryConfig.MaxRetries) ∧
    ((Retry DefaultRetryConfig (fun _ => some ['5', '0', '3'])
        (fun _ => false) (fun _ => false)).1 : Int) ≤
      DefaultRetryConfig.MaxRetries + 1 :=
  ⟨by decide,
   c6_retry_invocation_bound DefaultRetryConfig
     (fun _ => some ['5', '0', '3']) (fun _ => false) (fun _ => false)
     (by decide)⟩

/-- Go's `time.Duration(f)` conversion: truncation toward zero of a real
value, modelled on exact rationals. -/
def goDuration (q : ℚ) : Int := q.num.tdiv q.den

/-- Go `baseDelay * math.Pow(2, attempt)`, on exact rationals. -/
def expDelayRaw (attempt : Nat) (baseDelay : Int) : ℚ :=
  (baseDelay : ℚ) * 2 ^ attempt

/-- The `if expDelay > float64(maxDelay)` cap in `calculateDelay`. -/
def expDelayCapped (attempt : Nat) (baseDelay maxDelay : Int) : ℚ :=
  if expDelayRaw attempt baseDelay > (maxDelay : ℚ) then (maxDelay : ℚ)
  else expDelayRaw attempt baseDelay

/-- Go `time.Duration(rand.Float64() * expDelay)`; the random draw
`rand.Float64()` is the parameter `r ∈ [0, 1)`. -/
def jitteredDelay (attempt : Nat) (baseDelay maxDelay : Int) (r : ℚ) :
    Int :=
  goDuration (r * expDelayCapped attempt baseDelay maxDelay)

/-- Go `calculateDelay`, with the final clamp to at least
`time.Millisecond` = 1e6 ns. -/
def calculateDelay (attempt : Nat) (baseDelay maxDelay : Int) (r : ℚ) :
    Int :=
  if jitteredDelay attempt baseDelay maxDelay r < 1000000 then 1000000
  else jitteredDelay attempt baseDelay maxDelay r

/-- C7 counterexample: with `baseDelay = maxDelay = 1 ns` (positive, and
`maxDelay ≥ baseDelay`) and the random draw 0, the computed delay is the
1 ms clamp, which exceeds `maxDelay`; so the claimed upper bound
`delay ≤ maxDelay` fails whenever `maxDelay < 1 ms`. -/
theorem c7_counterexample :
    (0 : Int) < 1 ∧ (1 : Int) ≤ 1 ∧ (0 : ℚ) ≤ 0 ∧ (0 : ℚ) < 1 ∧
    calculateDelay 0 1 1 0 = 1000000 ∧
    ¬(calculateDelay 0 1 1 0 ≤ (1 : Int)) := by
  refine ⟨by norm_num, by norm_num, le_refl 0, by norm_num, ?_, ?_⟩
  · rw [calculateDelay]
    norm_num [jitteredDelay, goDuration, expDelayCapped, expDelayRaw]
  · rw [calculateDelay]
    norm_num [jitteredDelay, goDuration, expDelayCapped, expDelayRaw]

lemma goDuration_le {q : ℚ} (hq : 0 ≤ q) : (goDuration q : ℚ) ≤ q := by
  rw [goDuration, Int.tdiv_eq_ediv (Rat.num_nonneg.2 hq) (Int.ofNat_nonneg _)]
  rw [← Rat.floor_def]
  exact Int.floor_le q

/-- C7 amended: with base delay > 0, max delay ≥ base delay and the
random draw in [0, 1), every computed backoff delay is at least 1 ms and
at most `max maxDelay 1ms` — the 1 ms clamp is applied after the
`maxDelay` cap, so the upper bound is `maxDelay` only once
`maxDelay ≥ 1 ms`. -/
theorem c7_amended_delay_bounds (attempt : Nat) (baseDelay maxDelay : Int)
    (r : ℚ) (hb : 0 < baseDelay) (hbm : baseDelay ≤ maxDelay)
    (hr0 : 0 ≤ r) (hr1 : r < 1) :
    1000000 ≤ calculateDelay attempt baseDelay maxDelay r ∧
    calculateDelay attempt baseDelay maxDelay r ≤
      max maxDelay 1000000 := by
  have hraw : (0 : ℚ) ≤ expDelayRaw attempt baseDelay := by
    rw [expDelayRaw]
    have : (0 : ℚ) < (baseDelay : ℚ) := by exact_mod_cast hb
    positivity
  have hcap0 : (0 : ℚ) ≤ expDelayCapped attempt baseDelay maxDelay := by
    rw [expDelayCapped]
    by_cases h : expDelayRaw attempt baseDelay > (maxDelay : ℚ)
    · rw [if_pos h]
      have : (0 : ℚ) < (baseDelay : ℚ) := by exact_mod_cast hb
      have : (baseDelay : ℚ) ≤ (maxDelay : ℚ) := by exact_mod_cast hbm
      linarith
    · rw [if_neg h]; exact hraw
  have hcapmax : expDelayCapped attempt baseDelay maxDelay ≤ (maxDelay : ℚ) := by
    rw [expDelayCapped]
    by_cases h : expDelayRaw attempt baseDelay > (maxDelay : ℚ)
    · rw [if_pos h]
    · rw [if_neg h]; exact not_lt.1 h
  have hjit : (jitteredDelay attempt baseDelay maxDelay r : ℚ) ≤
      (maxDelay : ℚ) := by
    rw [jitteredDelay]
    have h1 : (0 : ℚ) ≤ r * expDelayCapped attempt baseDelay maxDelay :=
      mul_nonneg hr0 hcap0
    have h2 : r * expDelayCapped attempt baseDelay maxDelay ≤
        expDelayCapped attempt baseDelay maxDelay :=
      mul_le_of_le_one_left hcap0 (le_of_lt hr1)
    calc (goDuration (r * expDelayCapped attempt baseDelay maxDelay) : ℚ)
        ≤ r * expDelayCapped attempt baseDelay maxDelay := goDuration_le h1
      _ ≤ expDelayCapped attempt baseDelay maxDelay := h2
      _ ≤ (maxDelay : ℚ) := hcapmax
  have hjitInt : jitteredDelay attempt baseDelay maxDelay r ≤ maxDelay := by
    exact_mod_cast hjit
  rw [calculateDelay]
  by_cases hclamp : jitteredDelay attempt baseDelay maxDelay r < 1000000
  · rw [if_pos hclamp]
    exact ⟨le_refl _, le_max_right _ _⟩
  · rw [if_neg hclamp]
    exact ⟨not_lt.1 hclamp, le_trans hjitInt (le_max_left _ _)⟩

theorem c7_witness :
    (0 : Int) < 500000000 ∧ (500000000 : Int) ≤ 30000000000 ∧
    (0 : ℚ) ≤ 1 / 2 ∧ (1 / 2 : ℚ) < 1 ∧
    (1000000 ≤ calculateDelay 1 500000000 30000000000 (1 / 2) ∧
      calculateDelay 1 500000000 30000000000 (1 / 2) ≤
        max 30000000000 1000000) :=
  ⟨by norm_num, by norm_num, by norm_num, by norm_num,
   c7_amended_delay_bounds 1 500000000 30000000000 (1 / 2)
     (by norm_num) (by norm_num) (by norm_num) (by norm_num)⟩

/-! ## Key pool (key rotation, package resilience) -/

/-- Go `keyEntry`: `Remaining = -1` means unknown; `ResetAt` is an integer
nanosecond instant (Go zero time = 0). -/
structure keyEntry where
  Key : String
  Remaining : Int
  ResetAt : Int
  Exhausted : Bool
deriving DecidableEq

/-- Go `KeyPool`: ordered entries plus the rotating cursor. -/
structure KeyPool where
  keys : List keyEntry
  current : Nat
deriving DecidableEq

/-- Go `NewKeyPool`: every key starts with unknown remaining budget. -/
def NewKeyPool (ks : List String) : KeyPool :=
  { keys := ks.map fun k =>
      { Key := k, Remaining := -1, ResetAt := 0, Exhausted := false }
    current := 0 }

/-- One walked entry of `Next`: clear exhaustion if the reset instant is
strictly past (`time.Now().After(ResetAt)`), then select the entry if it
is not exhausted, advancing the cursor one slot past it. -/
def nextWalk (now : Int) : KeyPool → Nat → Nat → KeyPool × Option String
  | kp, 0, _ => (kp, none)
  | kp, fuel + 1, i =>
    let n := kp.keys.length
    let idx := (kp.current + i) % n
    match kp.keys[idx]? with
    | none => (kp, none)
    | some entry =>
      if entry.Exhausted ∧ now > entry.ResetAt then
        ({ keys := kp.keys.set idx
             { entry with Exhausted := false, Remaining := -1 }
           current := (idx + 1) % n },
          some entry.Key)
      else if !entry.Exhausted then
        ({ kp with current := (idx + 1) % n }, some entry.Key)
      else
        nextWalk now kp fuel (i + 1)

/-- The earliest `ResetAt` across the pool, folded exactly as the Go
loop does starting from `keys[0].ResetAt`. -/
def earliestReset : List keyEntry → Int
  | [] => 0
  | e :: rest =>
      rest.foldl (fun acc x => if x.ResetAt < acc then x.ResetAt else acc)
        e.ResetAt

/-- Result of `Next`: a key, the `no keys configured` error, or the
`all keys exhausted` error annotated with the earliest reset instant. -/
inductive NextResult where
  | ok (key : String)
  | noKeys
  | allExhausted (earliest : Int)
deriving DecidableEq

/-- Go `Next`: walk up to `n` entries from the cursor; if none survives,
report the earliest reset time across the pool. -/
def KeyPool.Next (kp : KeyPool) (now : Int) : KeyPool × NextResult :=
  if kp.keys.length = 0 then
    (kp, .noKeys)
  else
    match nextWalk now kp kp.keys.length 0 with
    | (kp2, some k) => (kp2, .ok k)
    | (kp2, none) => (kp2, .allExhausted (earliestReset kp2.keys))

/-- The entry update of `MarkRateLimited`, applied to the first entry
with a matching key (the Go loop returns after the first match). -/
def markRateLimitedList (key : String) (resetAt : Int) :
    List keyEntry → List keyEntry
  | [] => []
  | e :: rest =>
    if e.Key = key then
      { e with Exhausted := true, ResetAt := resetAt, Remaining := 0 } :: rest
    else
      e :: markRateLimitedList key resetAt rest

/-- Go `MarkRateLimited`: silently no-ops when the key is absent. -/
def KeyPool.MarkRateLimited (kp : KeyPool) (key : String) (resetAt : Int) :
    KeyPool :=
  { kp with keys := markRateLimitedList key resetAt kp.keys }

/-- The entry update of `UpdateRemaining`: records the observed budget
and sets `Exhausted` only when `remaining = 0`. -/
def updateRemainingList (key : String) (remaining resetAt : Int) :
    List keyEntry → List keyEntry
  | [] => []
  | e :: rest =>
    if e.Key = key then
      { e with
        Remaining := remaining
        ResetAt := resetAt
        Exhausted := if remaining = 0 then true else e.Exhausted } :: rest
    else
      e :: updateRemainingList key remaining resetAt rest

/-- Go `UpdateRemaining`. -/
def KeyPool.UpdateRemaining (kp : KeyPool) (key : String)
    (remaining resetAt : Int) : KeyPool :=
  { kp with keys := updateRemainingList key remaining resetAt kp.keys }

/-- The pool operations whose sequences claims quantify over. -/
inductive PoolOp where
  | next (now : Int)
  | markRateLimited (key : String) (resetAt : Int)
  | updateRemaining (key : String) (remaining resetAt : Int)
deriving DecidableEq

/-- Apply one operation to the pool (the result value of `Next` is
discarded; only the state matters for the invariants). -/
def applyOp (kp : KeyPool) : PoolOp → KeyPool
  | .next now => (kp.Next now).1
  | .markRateLimited key resetAt => kp.MarkRateLimited key resetAt
  | .updateRemaining key remaining resetAt =>
      kp.UpdateRemaining key remaining resetAt

/-- Apply a sequence of operations left to right. -/
def applyOps (kp : KeyPool) (ops : List PoolOp) : KeyPool :=
  ops.foldl applyOp kp

/-- The invariant direction `remaining = 0 → exhausted`, as a decidable
check over all entries. -/
def invZeroImpExhausted (kp : KeyPool) : Bool :=
  kp.keys.all fun e => e.Remaining != 0 || e.Exhausted

/-- The invariant direction `exhausted → remaining = 0`, as a decidable
check over all entries. -/
def invExhaustedImpZero (kp : KeyPool) : Bool :=
  kp.keys.all fun e => !e.Exhausted || e.Remaining == 0

/-- Whether an operation is an `UpdateRemaining`. -/
def PoolOp.isUpdateRemaining : PoolOp → Bool
  | .updateRemaining _ _ _ => true
  | _ => false

lemma mem_markRateLimitedList {key : String} {t : Int} :
    ∀ {l : List keyEntry} {e : keyEntry},
      e ∈ markRateLimitedList key t l →
      e ∈ l ∨ (e.Exhausted = true ∧ e.Remaining = 0) := by
  intro l
  induction l with
  | nil => intro e h; rw [markRateLimitedList] at h; exact Or.inl h
  | cons a rest ih =>
      intro e h
      rw [markRateLimitedList] at h
      by_cases hk : a.Key = key
      · rw [if_pos hk] at h
        rcases List.mem_cons.1 h with h | h
        · subst h; exact Or.inr ⟨rfl, rfl⟩
        · exact Or.inl (List.mem_cons_of_mem _ h)
      · rw [if_neg hk] at h
        rcases List.mem_cons.1 h with h | h
        · subst h; exact Or.inl (List.mem_cons_self _ _)
        · rcases ih h with h | h
          · exact Or.inl (List.mem_cons_of_mem _ h)
          · exact Or.inr h

lemma mem_updateRemainingList {key : String} {r t : Int} :
    ∀ {l : List keyEntry} {e : keyEntry},
      e ∈ updateRemainingList key r t l →
      e ∈ l ∨ (e.Remaining = 0 → e.Exhausted = true) := by
  intro l
  induction l with
  | nil => intro e h; rw [updateRemainingList] at h; exact Or.inl h
  | cons a rest ih =>
      intro e h
      rw [updateRemainingList] at h
      by_cases hk : a.Key = key
      · rw [if_pos hk] at h
        rcases List.mem_cons.1 h with h | h
        · subst h
          refine Or.inr fun hr => ?_
          simp only at hr ⊢
          rw [if_pos hr]
        · exact Or.inl (List.mem_cons_of_mem _ h)
      · rw [if_neg hk] at h
        rcases List.mem_cons.1 h with h | h
        · subst h; exact Or.inl (List.mem_cons_self _ _)
        · rcases ih h with h | h
          · exact Or.inl (List.mem_cons_of_mem _ h)
          · exact Or.inr h

lemma mem_nextWalk {now : Int} :
    ∀ (fuel : Nat) (kp : KeyPool) (i : Nat) {e : keyEntry},
      e ∈ (nextWalk now kp fuel i).1.keys →
      e ∈ kp.keys ∨ (e.Exhausted = false ∧ e.Remaining = -1) := by
  intro fuel
  induction fuel with
  | zero => intro kp i e h; rw [nextWalk] at h; exact Or.inl h
  | succ fuel ih =>
      intro kp i e h
      rw [nextWalk] at h
      cases hidx : kp.keys[(kp.current + i) % kp.keys.length]? with
      | none => rw [hidx] at h; exact Or.inl h
      | some entry =>
          rw [hidx] at h
          dsimp only at h
          by_cases hc : entry.Exhausted = true ∧ now > entry.ResetAt
          · rw [if_pos hc] at h
            rcases List.mem_or_eq_of_mem_set h with h | h
            · exact Or.inl h
            · subst h; exact Or.inr ⟨rfl, rfl⟩
          · rw [if_neg hc] at h
            by_cases hex : !entry.Exhausted
            · rw [if_pos hex] at h; exact Or.inl h
            · rw [if_neg hex] at h
              exact ih kp (i + 1) h

lemma mem_next {kp : KeyPool} {now : Int} {e : keyEntry}
    (h : e ∈ (kp.Next now).1.keys) :
    e ∈ kp.keys ∨ (e.Exhausted = false ∧ e.Remaining = -1) := by
  rw [KeyPool.Next] at h
  by_cases h0 : kp.keys.length = 0
  · rw [if_pos h0] at h; exact Or.inl h
  · rw [if_neg h0] at h
    cases hw : nextWalk now kp kp.keys.length 0 with
    | mk kp2 res =>
        rw [hw] at h
        cases res with
        | some k =>
            have : kp2 = (nextWalk now kp kp.keys.length 0).1 := by
              rw [hw]
            rw [this] at h
            exact mem_nextWalk kp.keys.length kp 0 h
        | none =>
            have : kp2 = (nextWalk now kp kp.keys.length 0).1 := by
              rw [hw]
            rw [this] at h
            exact mem_nextWalk kp.keys.length kp 0 h

lemma invZE_applyOp {kp : KeyPool} (op : PoolOp)
    (h : invZeroImpExhausted kp = true) :
    invZeroImpExhausted (applyOp kp op) = true := by
  rw [invZeroImpExhausted, List.all_eq_true] at h ⊢
  intro e he
  cases op with
  | next now =>
      rcases mem_next he with hm | ⟨-, hm⟩
      · exact h e hm
      · simp [hm]
  | markRateLimited key t =>
      rcases mem_markRateLimitedList he with hm | ⟨hex, -⟩
      · exact h e hm
      · simp [hex]
  | updateRemaining key r t =>
      rcases mem_updateRemainingList he with hm | hm
      · exact h e hm
      · by_cases hr : e.Remaining = 0
        · simp [hm hr]
        · simp [hr]

lemma invEZ_applyOp {kp : KeyPool} (op : PoolOp)
    (hnu : op.isUpdateRemaining = false)
    (h : invExhaustedImpZero kp = true) :
    invExhaustedImpZero (applyOp kp op) = true := by
  rw [invExhaustedImpZero, List.all_eq_true] at h ⊢
  intro e he
  cases op with
  | next now =>
      rcases mem_next he with hm | ⟨hex, -⟩
      · exact h e hm
      · simp [hex]
  | markRateLimited key t =>
      rcases mem_markRateLimitedList he with hm | ⟨-, hr⟩
      · exact h e hm
      · simp [hr]
  | updateRemaining key r t =>
      rw [PoolOp.isUpdateRemaining] at hnu
      exact absurd hnu (by simp)

/-- C3 counterexample: on a one-key pool, `MarkRateLimited` followed by
`UpdateRemaining` with remaining 5 leaves the entry exhausted with
`remaining = 5`: the direction `exhausted → remaining = 0` fails after
this operation sequence. -/
theorem c3_counterexample :
    invExhaustedImpZero
      (applyOps (NewKeyPool ["k"])
        [.markRateLimited "k" 100, .updateRemaining "k" 5 200]) = false ∧
    (applyOps (NewKeyPool ["k"])
        [.markRateLimited "k" 100, .updateRemaining "k" 5 200]).keys =
      [{ Key := "k", Remaining := 5, ResetAt := 200, Exhausted := true }] := by
  constructor
  · rfl
  · rfl

/-- C3 amended: after every operation sequence on a fresh pool,
`remaining = 0 → exhausted` holds for every entry; the converse
`exhausted → remaining = 0` holds for every sequence that contains no
`UpdateRemaining` operation (`UpdateRemaining` with a nonzero remaining
value on an exhausted entry violates it). -/
lemma inv_foldl (ops : List PoolOp) : ∀ kp : KeyPool,
    (invZeroImpExhausted kp = true →
      invZeroImpExhausted (ops.foldl applyOp kp) = true) ∧
    ((ops.all fun op => !op.isUpdateRemaining) = true →
      invExhaustedImpZero kp = true →
      invExhaustedImpZero (ops.foldl applyOp kp) = true) := by
  induction ops with
  | nil => intro kp; exact ⟨fun h => h, fun _ h => h⟩
  | cons op rest ih =>
      intro kp
      rw [List.foldl_cons]
      constructor
      · intro h
        exact (ih (applyOp kp op)).1 (invZE_applyOp op h)
      · intro hall h
        rw [List.all_cons, Bool.and_eq_true] at hall
        obtain ⟨hop, hrest⟩ := hall
        rw [Bool.not_eq_true'] at hop
        exact (ih (applyOp kp op)).2 hrest (invEZ_applyOp op hop h)

theorem c3_amended_pool_invariants (ks : List String) (ops : List PoolOp) :
    invZeroImpExhausted (applyOps (NewKeyPool ks) ops) = true ∧
    ((ops.all fun op => !op.isUpdateRemaining) = true →
      invExhaustedImpZero (applyOps (NewKeyPool ks) ops) = true) := by
  have hze : invZeroImpExhausted (NewKeyPool ks) = true := by
    rw [invZeroImpExhausted, List.all_eq_true]
    intro e he
    rw [NewKeyPool] at he
    simp only [List.mem_map] at he
    obtain ⟨k, -, rfl⟩ := he
    simp
  have hez : invExhaustedImpZero (NewKeyPool ks) = true := by
    rw [invExhaustedImpZero, List.all_eq_true]
    intro e he
    rw [NewKeyPool] at he
    simp only [List.mem_map] at he
    obtain ⟨k, -, rfl⟩ := he
    simp
  rw [applyOps]
  exact ⟨(inv_foldl ops _).1 hze,
    fun hall => (inv_foldl ops _).2 hall hez⟩

theorem c3_witness :
    ((([.markRateLimited "a" 5, .next 10] : List PoolOp).all
        fun op => !op.isUpdateRemaining) = true) ∧
    invZeroImpExhausted
      (applyOps (NewKeyPool ["a", "b"])
        [.markRateLimited "a" 5, .next 10]) = true ∧
    invExhaustedImpZero
      (applyOps (NewKeyPool ["a", "b"])
        [.markRateLimited "a" 5, .next 10]) = true :=
  ⟨by decide,
   (c3_amended_pool_invariants ["a", "b"]
     [.markRateLimited "a" 5, .next 10]).1,
   (c3_amended_pool_invariants ["a", "b"]
     [.markRateLimited "a" 5, .next 10]).2 (by decide)⟩

/-- An entry at `idx` survives the walk of `Next` at time `now`: it is
either not exhausted, or exhausted with its reset instant strictly past
(the code's `now.After(ResetAt)`). -/
def availAt (kp : KeyPool) (now : Int) (idx : Nat) : Bool :=
  match kp.keys[idx]? with
  | none => false
  | some e => !e.Exhausted || decide (now > e.ResetAt)

/-- Selection of the entry at `idx`: clear its exhaustion if set (the
walk only selects an exhausted entry after clearing it) and advance the
cursor exactly one slot past `idx`. -/
def selectAt (kp : KeyPool) (idx : Nat) : KeyPool × Option String :=
  match kp.keys[idx]? with
  | none => (kp, none)
  | some e =>
    if e.Exhausted then
      ({ keys := kp.keys.set idx { e with Exhausted := false, Remaining := -1 }
         current := (idx + 1) % kp.keys.length }, some e.Key)
    else
      ({ kp with current := (idx + 1) % kp.keys.length }, some e.Key)

/-- The spec-side description of `Next` (with the clearing condition
amended from `now ≥ reset_at` to the code's strict `now > reset_at`):
walk the offsets `0 .. n-1` from the cursor, select the first surviving
entry — clearing its exhaustion and advancing the cursor one slot past
it — and if none survives return the `all keys exhausted` error
annotated with the earliest reset instant across the pool. -/
def nextSpec (kp : KeyPool) (now : Int) : KeyPool × NextResult :=
  if kp.keys.length = 0 then
    (kp, .noKeys)
  else
    match (List.range kp.keys.length).find?
        (fun j => availAt kp now ((kp.current + j) % kp.keys.length)) with
    | none => (kp, .allExhausted (earliestReset kp.keys))
    | some j =>
      match selectAt kp ((kp.current + j) % kp.keys.length) with
      | (kp2, some k) => (kp2, .ok k)
      | (kp2, none) => (kp2, .allExhausted (earliestReset kp2.keys))

lemma availAt_eq {kp : KeyPool} {now : Int} {idx : Nat} {entry : keyEntry}
    (hent : kp.keys[idx]? = some entry) :
    availAt kp now idx = (!entry.Exhausted || decide (now > entry.ResetAt)) := by
  unfold availAt
  rw [hent]

lemma selectAt_eq {kp : KeyPool} {idx : Nat} {entry : keyEntry}
    (hent : kp.keys[idx]? = some entry) :
    selectAt kp idx =
      if entry.Exhausted then
        ({ keys := kp.keys.set idx
             { entry with Exhausted := false, Remaining := -1 }
           current := (idx + 1) % kp.keys.length }, some entry.Key)
      else
        ({ kp with current := (idx + 1) % kp.keys.length },
          some entry.Key) := by
  unfold selectAt
  rw [hent]

lemma find?_range_succ (p : Nat → Bool) (n : Nat) :
    (List.range (n + 1)).find? p =
      if p 0 then some 0
      else Option.map Nat.succ ((List.range n).find? (p ∘ Nat.succ)) := by
  rw [List.range_succ_eq_map]
  by_cases h0 : p 0
  · rw [List.find?_cons_of_pos _ h0, if_pos h0]
  · rw [List.find?_cons_of_neg _ h0, if_neg h0, List.find?_map]

lemma nextWalk_eq (now : Int) :
    ∀ (fuel : Nat) (kp : KeyPool) (i : Nat), 0 < kp.keys.length →
      nextWalk now kp fuel i =
        match (List.range fuel).find?
            (fun j => availAt kp now
              ((kp.current + (i + j)) % kp.keys.length)) with
        | none => (kp, none)
        | some j => selectAt kp ((kp.current + (i + j)) % kp.keys.length) := by
  intro fuel
  induction fuel with
  | zero =>
      intro kp i hpos
      rw [nextWalk]
      rfl
  | succ fuel ih =>
      intro kp i hpos
      obtain ⟨entry, hent⟩ :
          ∃ e, kp.keys[(kp.current + i) % kp.keys.length]? = some e :=
        ⟨_, List.getElem?_eq_getElem (Nat.mod_lt _ hpos)⟩
      rw [nextWalk, find?_range_succ]
      simp only [Nat.add_zero]
      rw [hent]
      dsimp only
      by_cases h0 : availAt kp now ((kp.current + i) % kp.keys.length) = true
      · rw [if_pos h0]
        dsimp only
        simp only [Nat.add_zero]
        have h0e := h0
        rw [availAt_eq hent] at h0e
        by_cases hex : entry.Exhausted = true
        · have hgt : now > entry.ResetAt := by
            rw [hex] at h0e
            simpa using h0e
          rw [if_pos ⟨hex, hgt⟩]
          rw [selectAt_eq hent, if_pos hex]
        · have hex' : entry.Exhausted = false := by
            rw [Bool.not_eq_true] at hex
            exact hex
          rw [if_neg (by simp [hex']), if_pos (by simp [hex'])]
          rw [selectAt_eq hent, if_neg (by simp [hex'])]
      · have h0f := h0
        rw [availAt_eq hent] at h0f
        have hfacts : entry.Exhausted = true ∧ ¬(now > entry.ResetAt) := by
          constructor
          · by_contra hbne
            rw [Bool.not_eq_true] at hbne
            exact h0f (by simp [hbne])
          · intro hgt
            exact h0f (by simp [hgt])
        rw [if_neg (fun hand => hfacts.2 hand.2),
          if_neg (by simp [hfacts.1])]
        rw [if_neg h0]
        rw [ih kp (i + 1) hpos]
        have hpred :
            ((fun j => availAt kp now
              ((kp.current + (i + j)) % kp.keys.length)) ∘ Nat.succ) =
            (fun j => availAt kp now
              ((kp.current + (i + 1 + j)) % kp.keys.length)) := by
          funext j
          have : i + Nat.succ j = i + 1 + j := by omega
          simp only [Function.comp]
          rw [this]
        rw [hpred]
        cases hf : (List.range fuel).find?
            (fun j => availAt kp now
              ((kp.current + (i + 1 + j)) % kp.keys.length)) with
        | none => rfl
        | some j =>
            dsimp only [Option.map]
            have : i + Nat.succ j = i + 1 + j := by omega
            rw [this]

/-- A one-entry pool whose key is exhausted with `reset_at = 5`, used by
the C5 counterexample. -/
def kpBoundary : KeyPool :=
  { keys := [{ Key := "k", Remaining := 0, ResetAt := 5, Exhausted := true }]
    current := 0 }

/-- C5 counterexample: the pool above queried at `now = 5`.  The spec
condition `now ≥ reset_at` holds, so the claim requires the entry to be
cleared and returned, but the code's strict `now.After(reset_at)`
comparison leaves it exhausted and `Next` reports all keys exhausted. -/
theorem c5_counterexample :
    (5 : Int) ≥ 5 ∧
    (kpBoundary.Next 5).2 = NextResult.allExhausted 5 ∧
    (kpBoundary.Next 5).2 ≠ NextResult.ok "k" := by
  refine ⟨le_refl 5, rfl, by decide⟩

/-- C5 amended: for every key pool with at least one entry, `Next`
behaves exactly as the claim describes once the clearing condition is
the code's strict `now > reset_at`: it selects the first entry in walk
order that is not exhausted or whose reset instant is strictly past,
clears that entry's exhaustion if set, advances the cursor exactly one
position past the selected slot, and if no entry survives returns the
`all keys exhausted` error annotated with the earliest `reset_at`
across the pool.  (`nextSpec` is that description.) -/
theorem c5_amended_next_refines_spec (kp : KeyPool) (now : Int)
    (hn : kp.keys.length ≠ 0) :
    kp.Next now = nextSpec kp now := by
  have hpos : 0 < kp.keys.length := Nat.pos_of_ne_zero hn
  rw [KeyPool.Next, nextSpec, if_neg hn, if_neg hn]
  rw [nextWalk_eq now kp.keys.length kp 0 hpos]
  simp only [Nat.zero_add]
  cases hf : (List.range kp.keys.length).find?
      (fun j => availAt kp now ((kp.current + j) % kp.keys.length)) with
  | none => rfl
  | some j => rfl

/-- A two-entry pool (first exhausted, second fresh) used by the C5
witness. -/
def kpRotW : KeyPool :=
  { keys := [{ Key := "a", Remaining := 0, ResetAt := 10, Exhausted := true },
             { Key := "b", Remaining := -1, ResetAt := 0, Exhausted := false }]
    current := 0 }

theorem c5_witness :
    (kpRotW.keys.length ≠ 0) ∧ kpRotW.Next 3 = nextSpec kpRotW 3 :=
  ⟨by decide, c5_amended_next_refines_spec kpRotW 3 (by decide)⟩

/-! ## Semantic cache (package cache: semantic cache, vector store,
redis cache) -/

/-- Go `provider.Response`. -/
structure Response where
  Text : String
  PromptTokens : Int
  OutputTokens : Int
deriving DecidableEq, Inhabited

/-- Go `SearchResult` from the vector store; the float32 score is modelled
as a rational. -/
structure SearchResult where
  ID : String
  Score : ℚ
  Found : Bool
deriving DecidableEq

/-- A Qdrant point as built by `VectorStore.Upsert`: a point id, the
embedding vector (float32 coordinates as rationals) and the payload map. -/
structure VectorPoint where
  id : String
  vector : List ℚ
  payload : List (String × String)
deriving DecidableEq

/-- The cache back-end state: the Redis key-value map and the Qdrant
point set. -/
structure CacheState where
  redis : List (String × Response)
  points : List VectorPoint
deriving DecidableEq

/-- Go `RedisCache.Get` (within TTL): first binding for the key, if any. -/
def redisGet (st : List (String × Response)) (key : String) :
    Option Response :=
  (st.find? fun p => p.1 == key).map fun p => p.2

/-- Go `RedisCache.Set`: bind `key`, shadowing any earlier binding. -/
def redisSet (st : List (String × Response)) (key : String)
    (resp : Response) : List (String × Response) :=
  (key, resp) :: st

/-- Go `cacheKeyFromPrompt`.  `hashHex` models `hex(sha256(prompt)[:16])`
from the crypto standard library (external to the repository): an
arbitrary deterministic function of the prompt. -/
def cacheKeyFromPrompt (hashHex : String → String) (prompt : String) :
    String :=
  "llm_cache:" ++ hashHex prompt

/-- Go `CacheResult` of a lookup. -/
structure CacheResult where
  Response : Response
  Hit : Bool
deriving DecidableEq

/-- Go `SemanticCache.Store` on the success path of both writes (embed
succeeds, Redis `Set` and vector `Upsert` succeed): write
fingerprint → response to Redis, then upsert a point whose id is the
fresh random UUID (`uuid` parameter) and whose payload carries the
fingerprint under `cache_key`.  An embedding error aborts with the state
unchanged. -/
def Store (embed : String → Option (List ℚ)) (hashHex : String → String)
    (st : CacheState) (uuid : String) (prompt : String) (resp : Response) :
    CacheState :=
  match embed prompt with
  | none => st
  | some vector =>
    { redis := redisSet st.redis (cacheKeyFromPrompt hashHex prompt) resp
      points := st.points ++
        [{ id := uuid, vector := vector,
           payload := [("cache_key", cacheKeyFromPrompt hashHex prompt)] }] }

/-- Go `SemanticCache.Lookup`.  `searchFn` models the Qdrant
nearest-neighbour search (external service): it receives the query
vector and the threshold and produces a `SearchResult` (`none` = search
error, treated as a miss).  Note the Redis key used on a vector hit is
`result.ID` — the point id — not the `cache_key` payload. -/
def Lookup (embed : String → Option (List ℚ))
    (searchFn : List ℚ → ℚ → Option SearchResult) (threshold : ℚ)
    (st : CacheState) (prompt : String) : CacheResult :=
  match embed prompt with
  | none => { Response := default, Hit := false }
  | some vector =>
    match searchFn vector threshold with
    | none => { Response := default, Hit := false }
    | some result =>
      if !result.Found then
        { Response := default, Hit := false }
      else
        match redisGet st.redis result.ID with
        | none => { Response := default, Hit := false }
        | some resp => { Response := resp, Hit := true }

/-- Deterministic embedder used for the C1 failing input. -/
def embedW : String → Option (List ℚ) := fun _ => some [1]

/-- Hash stand-in for the C1 failing input. -/
def hashW : String → String := fun s => s

/-- The random UUID drawn by the upsert for the C1 failing input. -/
def uuidW : String := "1b4e28ba-2fa1-11d2-883f-0016d3cca427"

/-- The cached response of the C1 failing input. -/
def respW : Response := { Text := "4", PromptTokens := 3, OutputTokens := 1 }

/-- The state after `Store` completes on the C1 failing input. -/
def storedStateW : CacheState :=
  Store embedW hashW { redis := [], points := [] } uuidW "what is 2+2?" respW

/-- A search that returns exactly the upserted point, above threshold. -/
def searchW : List ℚ → ℚ → Option SearchResult :=
  fun _ _ => some { ID := uuidW, Score := 1, Found := true }

/-- C1: after a completed `Store` (Redis holds fingerprint → response,
the vector index holds the upserted point), with a deterministic
embedder and a search that returns that very point above threshold, the
subsequent `Lookup` nevertheless misses: it queries Redis under the
point's random UUID instead of the `cache_key` payload, and no Redis
binding exists under that UUID. -/
theorem c1_store_then_lookup_misses :
    storedStateW.redis =
      [(cacheKeyFromPrompt hashW "what is 2+2?", respW)] ∧
    storedStateW.points.map (fun p => p.id) = [uuidW] ∧
    searchW [1] (95 / 100) =
      some { ID := uuidW, Score := 1, Found := true } ∧
    (Lookup embedW searchW (95 / 100) storedStateW "what is 2+2?").Hit =
      false := by
  refine ⟨rfl, rfl, rfl, ?_⟩
  rfl

/-! ## Provider streams (Gemini and OpenAI `InferStream` goroutines) -/

/-- Go `provider.StreamChunk`; the error is the message text, `none` for
nil. -/
structure StreamChunk where
  Text : String
  Done : Bool
  PromptTokens : Int
  OutputTokens : Int
  Err : Option String
deriving DecidableEq

/-- A chunk is a terminal event: `Done` set or a non-nil error. -/
def isTerminal (c : StreamChunk) : Bool := c.Done || c.Err.isSome

/-- Number of terminal events in a chunk sequence. -/
def countTerminal (l : List StreamChunk) : Nat :=
  l.countP fun c => isTerminal c

/-- The sequence is nonempty and its last chunk is terminal. -/
def lastIsTerminal (l : List StreamChunk) : Bool :=
  match l.getLast? with
  | none => false
  | some c => isTerminal c

/-- Every chunk before the last is non-terminal. -/
def terminalOnlyAtEnd : List StreamChunk → Bool
  | [] => true
  | [_] => true
  | c :: l => !isTerminal c && terminalOnlyAtEnd l

/-- Advance the cancellation schedule by one observation point.
`some n` means the context is first observed cancelled at the n-th
check. -/
def tickCancel : Option Nat → Option Nat
  | none => none
  | some n => some (n - 1)

/-- A successfully decoded `geminiResponse`, reduced to the fields the
stream loop reads: the extracted candidate text and the usage counts. -/
structure GemVal where
  text : String
  promptTokenCount : Int
  candidatesTokenCount : Int
deriving DecidableEq

/-- How the Gemini decode stream ends: clean EOF or a decode error. -/
inductive GemEnd where
  | eof
  | decodeErr (msg : String)
deriving DecidableEq

/-- The chunk sequence sent by the `GeminiProvider.InferStream`
goroutine, as a function of the decoded values, the stream ending and
the cancellation schedule.  Each loop iteration first checks the
context; on decode error the goroutine sends an error chunk and then
still sends the final `Done` chunk. -/
def geminiStreamEmit : Option Nat → List GemVal → GemEnd → List StreamChunk
  | some 0, _, _ =>
      [{ Text := "", Done := false, PromptTokens := 0, OutputTokens := 0,
         Err := some "context canceled" }]
  | _, [], .eof =>
      [{ Text := "", Done := true, PromptTokens := 0, OutputTokens := 0,
         Err := none }]
  | _, [], .decodeErr m =>
      [{ Text := "", Done := false, PromptTokens := 0, OutputTokens := 0,
         Err := some ("gemini: stream decode: " ++ m) },
       { Text := "", Done := true, PromptTokens := 0, OutputTokens := 0,
         Err := none }]
  | cancel, v :: rest, ending =>
      { Text := v.text, Done := false, PromptTokens := v.promptTokenCount,
        OutputTokens := v.candidatesTokenCount, Err := none } ::
        geminiStreamEmit (tickCancel cancel) rest ending

/-- One scanned SSE line of the OpenAI stream, reduced to what the loop
reads: a line without the `data: ` prefix (skipped), the `[DONE]`
marker, a well-formed chunk (delta content plus optional usage), or a
chunk that fails to unmarshal. -/
inductive SSELine where
  | notData (raw : String)
  | doneMarker
  | chunkOk (content : String) (usage : Option (Int × Int))
  | chunkBad (msg : String)
deriving DecidableEq

/-- The chunk sequence sent by the `OpenAIProvider.InferStream`
goroutine: lines are scanned until exhausted; the context is checked
once per scanned line; `[DONE]` sends the terminal chunk with the
tracked usage totals; an unmarshal failure sends an error chunk and
stops; after the scanner stops, a scanner error (if any) is sent — and
nothing is sent when the lines end without `[DONE]` or a scan error. -/
def openaiStreamEmit :
    Option Nat → List SSELine → Option String → Int → Int →
      List StreamChunk
  | _, [], some m, _, _ =>
      [{ Text := "", Done := false, PromptTokens := 0, OutputTokens := 0,
         Err := some ("openai: stream scan: " ++ m) }]
  | _, [], none, _, _ => []
  | some 0, _ :: _, _, _, _ =>
      [{ Text := "", Done := false, PromptTokens := 0, OutputTokens := 0,
         Err := some "context canceled" }]
  | cancel, .notData _ :: rest, scanErr, totPT, totOT =>
      openaiStreamEmit (tickCancel cancel) rest scanErr totPT totOT
  | _, .doneMarker :: _, _, totPT, totOT =>
      [{ Text := "", Done := true, PromptTokens := totPT,
         OutputTokens := totOT, Err := none }]
  | _, .chunkBad m :: _, _, _, _ =>
      [{ Text := "", Done := false, PromptTokens := 0, OutputTokens := 0,
         Err := some ("openai: stream decode: " ++ m) }]
  | cancel, .chunkOk content usage :: rest, scanErr, totPT, totOT =>
      (if content ≠ "" then
        [{ Text := content, Done := false, PromptTokens := 0,
           OutputTokens := 0, Err := none }]
      else []) ++
        openaiStreamEmit (tickCancel cancel) rest scanErr
          (match usage with | some pu => pu.1 | none => totPT)
          (match usage with | some pu => pu.2 | none => totOT)

/-- C2 counterexample: a Gemini stream whose decoder fails immediately
emits an error chunk followed by a `Done` chunk — two terminal events in
one stream, contradicting the claimed "exactly one terminal event". -/
theorem c2_counterexample :
    countTerminal (geminiStreamEmit none [] (.decodeErr "bad json")) = 2 ∧
    ¬(countTerminal (geminiStreamEmit none [] (.decodeErr "bad json")) ≤ 1) := by
  exact ⟨rfl, by decide⟩

lemma countTerminal_cons_nonterminal {c : StreamChunk}
    (h : isTerminal c = false) (l : List StreamChunk) :
    countTerminal (c :: l) = countTerminal l := by
  simp [countTerminal, List.countP_cons, h]

lemma lastIsTerminal_cons {c : StreamChunk} {l : List StreamChunk}
    (h : l ≠ []) : lastIsTerminal (c :: l) = lastIsTerminal l := by
  cases l with
  | nil => exact absurd rfl h
  | cons b t => rw [lastIsTerminal, lastIsTerminal, List.getLast?_cons_cons]

lemma terminalOnlyAtEnd_cons {c : StreamChunk} (hc : isTerminal c = false) :
    ∀ {l : List StreamChunk},
      terminalOnlyAtEnd l = true → terminalOnlyAtEnd (c :: l) = true := by
  intro l h
  cases l with
  | nil => rfl
  | cons b t =>
      rw [show terminalOnlyAtEnd (c :: b :: t) =
        (!isTerminal c && terminalOnlyAtEnd (b :: t)) from rfl, hc, h]
      rfl

lemma gemini_terminality :
    ∀ (vals : List GemVal) (cancel : Option Nat) (ending : GemEnd),
      1 ≤ countTerminal (geminiStreamEmit cancel vals ending) ∧
      countTerminal (geminiStreamEmit cancel vals ending) ≤ 2 ∧
      lastIsTerminal (geminiStreamEmit cancel vals ending) = true := by
  intro vals
  induction vals with
  | nil =>
      intro cancel ending
      cases cancel with
      | some n =>
          cases n with
          | zero =>
              simp [geminiStreamEmit, countTerminal, isTerminal,
                lastIsTerminal]
          | succ k =>
              cases ending <;>
                simp [geminiStreamEmit, countTerminal, isTerminal,
                  lastIsTerminal]
      | none =>
          cases ending <;>
            simp [geminiStreamEmit, countTerminal, isTerminal,
              lastIsTerminal]
  | cons v rest ih =>
      intro cancel ending
      cases cancel with
      | some n =>
          cases n with
          | zero =>
              simp [geminiStreamEmit, countTerminal, isTerminal,
                lastIsTerminal]
          | succ k =>
              obtain ⟨h1, h2, h3⟩ := ih (some k) ending
              have hne : geminiStreamEmit (some k) rest ending ≠ [] := by
                intro hempty
                rw [hempty] at h1
                simp [countTerminal] at h1
              have hnt : isTerminal
                  { Text := v.text, Done := false,
                    PromptTokens := v.promptTokenCount,
                    OutputTokens := v.candidatesTokenCount,
                    Err := none } = false := rfl
              refine ⟨?_, ?_, ?_⟩
              · rw [show geminiStreamEmit (some (k + 1)) (v :: rest) ending =
                  { Text := v.text, Done := false,
                    PromptTokens := v.promptTokenCount,
                    OutputTokens := v.candidatesTokenCount, Err := none } ::
                    geminiStreamEmit (some k) rest ending from rfl]
                rw [countTerminal_cons_nonterminal hnt]
                exact h1
              · rw [show geminiStreamEmit (some (k + 1)) (v :: rest) ending =
                  { Text := v.text, Done := false,
                    PromptTokens := v.promptTokenCount,
                    OutputTokens := v.candidatesTokenCount, Err := none } ::
                    geminiStreamEmit (some k) rest ending from rfl]
                rw [countTerminal_cons_nonterminal hnt]
                exact h2
              · rw [show geminiStreamEmit (some (k + 1)) (v :: rest) ending =
                  { Text := v.text, Done := false,
                    PromptTokens := v.promptTokenCount,
                    OutputTokens := v.candidatesTokenCount, Err := none } ::
                    geminiStreamEmit (some k) rest ending from rfl]
                rw [lastIsTerminal_cons hne]
                exact h3
      | none =>
          obtain ⟨h1, h2, h3⟩ := ih none ending
          have hne : geminiStreamEmit none rest ending ≠ [] := by
            intro hempty
            rw [hempty] at h1
            simp [countTerminal] at h1
          have hnt : isTerminal
              { Text := v.text, Done := false,
                PromptTokens := v.promptTokenCount,
                OutputTokens := v.candidatesTokenCount,
                Err := none } = false := rfl
          refine ⟨?_, ?_, ?_⟩
          · rw [show geminiStreamEmit none (v :: rest) ending =
              { Text := v.text, Done := false,
                PromptTokens := v.promptTokenCount,
                OutputTokens := v.candidatesTokenCount, Err := none } ::
                geminiStreamEmit none rest ending from rfl]
            rw [countTerminal_cons_nonterminal hnt]
            exact h1
          · rw [show geminiStreamEmit none (v :: rest) ending =
              { Text := v.text, Done := false,
                PromptTokens := v.promptTokenCount,
                OutputTokens := v.candidatesTokenCount, Err := none } ::
                geminiStreamEmit none rest ending from rfl]
            rw [countTerminal_cons_nonterminal hnt]
            exact h2
          · rw [show geminiStreamEmit none (v :: rest) ending =
              { Text := v.text, Done := false,
                PromptTokens := v.promptTokenCount,
                OutputTokens := v.candidatesTokenCount, Err := none } ::
                geminiStreamEmit none rest ending from rfl]
            rw [lastIsTerminal_cons hne]
            exact h3

lemma openai_terminality :
    ∀ (lines : List SSELine) (cancel : Option Nat)
      (scanErr : Option String) (totPT totOT : Int),
      countTerminal (openaiStreamEmit cancel lines scanErr totPT totOT) ≤ 1 ∧
      terminalOnlyAtEnd
        (openaiStreamEmit cancel lines scanErr totPT totOT) = true := by
  intro lines
  induction lines with
  | nil =>
      intro cancel scanErr totPT totOT
      cases scanErr <;>
        simp [openaiStreamEmit, countTerminal, terminalOnlyAtEnd, isTerminal]
  | cons line rest ih =>
      intro cancel scanErr totPT totOT
      have hzero : ∀ (l : SSELine) (r : List SSELine),
          countTerminal (openaiStreamEmit (some 0) (l :: r) scanErr
            totPT totOT) ≤ 1 ∧
          terminalOnlyAtEnd (openaiStreamEmit (some 0) (l :: r) scanErr
            totPT totOT) = true := by
        intro l r
        simp [openaiStreamEmit, countTerminal, terminalOnlyAtEnd, isTerminal]
      cases hc : cancel with
      | some n =>
          cases n with
          | zero => exact hzero line rest
          | succ k =>
              cases line with
              | notData s => exact ih (some k) scanErr totPT totOT
              | doneMarker =>
                  simp [openaiStreamEmit, countTerminal, terminalOnlyAtEnd,
                    isTerminal]
              | chunkBad m =>
                  simp [openaiStreamEmit, countTerminal, terminalOnlyAtEnd,
                    isTerminal]
              | chunkOk content usage =>
                  by_cases hct : content = ""
                  · rw [show openaiStreamEmit (some (k + 1))
                      (.chunkOk content usage :: rest) scanErr totPT totOT =
                      (if content ≠ "" then
                        [{ Text := content, Done := false, PromptTokens := 0,
                           OutputTokens := 0, Err := none }]
                      else []) ++
                        openaiStreamEmit (some k) rest scanErr
                          (match usage with | some pu => pu.1 | none => totPT)
                          (match usage with | some pu => pu.2 | none => totOT)
                      from rfl]
                    rw [if_neg (by simp [hct])]
                    rw [List.nil_append]
                    exact ih (some k) scanErr _ _
                  · rw [show openaiStreamEmit (some (k + 1))
                      (.chunkOk content usage :: rest) scanErr totPT totOT =
                      (if content ≠ "" then
                        [{ Text := content, Done := false, PromptTokens := 0,
                           OutputTokens := 0, Err := none }]
                      else []) ++
                        openaiStreamEmit (some k) rest scanErr
                          (match usage with | some pu => pu.1 | none => totPT)
                          (match usage with | some pu => pu.2 | none => totOT)
                      from rfl]
                    rw [if_pos hct]
                    rw [List.singleton_append]
                    obtain ⟨ih1, ih2⟩ := ih (some k) scanErr
                      (match usage with | some pu => pu.1 | none => totPT)
                      (match usage with | some pu => pu.2 | none => totOT)
                    have hnt2 : isTerminal
                        { Text := content, Done := false, PromptTokens := 0,
                          OutputTokens := 0, Err := none } = false := rfl
                    refine ⟨?_, terminalOnlyAtEnd_cons hnt2 ih2⟩
                    rw [countTerminal_cons_nonterminal hnt2]
                    exact ih1
      | none =>
          cases line with
          | notData s => exact ih none scanErr totPT totOT
          | doneMarker =>
              simp [openaiStreamEmit, countTerminal, terminalOnlyAtEnd,
                isTerminal]
          | chunkBad m =>
              simp [openaiStreamEmit, countTerminal, terminalOnlyAtEnd,
                isTerminal]
          | chunkOk content usage =>
              by_cases hct : content = ""
              · rw [show openaiStreamEmit none
                  (.chunkOk content usage :: rest) scanErr totPT totOT =
                  (if content ≠ "" then
                    [{ Text := content, Done := false, PromptTokens := 0,
                       OutputTokens := 0, Err := none }]
                  else []) ++
                    openaiStreamEmit none rest scanErr
                      (match usage with | some pu => pu.1 | none => totPT)
                      (match usage with | some pu => pu.2 | none => totOT)
                  from rfl]
                rw [if_neg (by simp [hct])]
                rw [List.nil_append]
                exact ih none scanErr _ _
              · rw [show openaiStreamEmit none
                  (.chunkOk content usage :: rest) scanErr totPT totOT =
                  (if content ≠ "" then
                    [{ Text := content, Done := false, PromptTokens := 0,
                       OutputTokens := 0, Err := none }]
                  else []) ++
                    openaiStreamEmit none rest scanErr
                      (match usage with | some pu => pu.1 | none => totPT)
                      (match usage with | some pu => pu.2 | none => totOT)
                  from rfl]
                rw [if_pos hct]
                rw [List.singleton_append]
                obtain ⟨ih1, ih2⟩ := ih none scanErr
                  (match usage with | some pu => pu.1 | none => totPT)
                  (match usage with | some pu => pu.2 | none => totOT)
                have hnt2 : isTerminal
                    { Text := content, Done := false, PromptTokens := 0,
                      OutputTokens := 0, Err := none } = false := rfl
                refine ⟨?_, terminalOnlyAtEnd_cons hnt2 ih2⟩
                rw [countTerminal_cons_nonterminal hnt2]
                exact ih1

/-- The sequence is nonempty and its last chunk has the `Done` flag
set. -/
def lastIsDone (l : List StreamChunk) : Bool :=
  match l.getLast? with
  | none => false
  | some c => c.Done

/-- The chunk the Gemini goroutine sends for one decoded value. -/
def gemValChunk (v : GemVal) : StreamChunk :=
  { Text := v.text, Done := false, PromptTokens := v.promptTokenCount,
    OutputTokens := v.candidatesTokenCount, Err := none }

/-- The chunk the Gemini goroutine sends when it observes the context
cancelled: a non-nil error, `Done` not set, and no final chunk after. -/
def ctxErrChunk : StreamChunk :=
  { Text := "", Done := false, PromptTokens := 0, OutputTokens := 0,
    Err := some "context canceled" }

lemma lastIsDone_cons {c : StreamChunk} {l : List StreamChunk}
    (h : l ≠ []) : lastIsDone (c :: l) = lastIsDone l := by
  cases l with
  | nil => exact absurd rfl h
  | cons b t => rw [lastIsDone, lastIsDone, List.getLast?_cons_cons]

lemma gemini_nocancel_lastDone :
    ∀ (vals : List GemVal) (ending : GemEnd),
      lastIsDone (geminiStreamEmit none vals ending) = true := by
  intro vals
  induction vals with
  | nil => intro ending; cases ending <;> rfl
  | cons v rest ih =>
      intro ending
      have h1 := (gemini_terminality rest none ending).1
      have hne : geminiStreamEmit none rest ending ≠ [] := by
        intro hempty
        rw [hempty] at h1
        simp [countTerminal] at h1
      rw [show geminiStreamEmit none (v :: rest) ending =
        { Text := v.text, Done := false,
          PromptTokens := v.promptTokenCount,
          OutputTokens := v.candidatesTokenCount, Err := none } ::
          geminiStreamEmit none rest ending from rfl]
      rw [lastIsDone_cons hne]
      exact ih ending

lemma gemini_nocancel_count :
    ∀ (vals : List GemVal) (m : String),
      countTerminal (geminiStreamEmit none vals .eof) = 1 ∧
      countTerminal (geminiStreamEmit none vals (.decodeErr m)) = 2 := by
  intro vals
  induction vals with
  | nil =>
      intro m
      constructor
      · rfl
      · simp [geminiStreamEmit, countTerminal, isTerminal]
  | cons v rest ih =>
      intro m
      obtain ⟨ih1, ih2⟩ := ih m
      have hnt : isTerminal
          { Text := v.text, Done := false,
            PromptTokens := v.promptTokenCount,
            OutputTokens := v.candidatesTokenCount,
            Err := none } = false := rfl
      constructor
      · rw [show geminiStreamEmit none (v :: rest) .eof =
          { Text := v.text, Done := false,
            PromptTokens := v.promptTokenCount,
            OutputTokens := v.candidatesTokenCount, Err := none } ::
            geminiStreamEmit none rest .eof from rfl]
        rw [countTerminal_cons_nonterminal hnt]
        exact ih1
      · rw [show geminiStreamEmit none (v :: rest) (.decodeErr m) =
          { Text := v.text, Done := false,
            PromptTokens := v.promptTokenCount,
            OutputTokens := v.candidatesTokenCount, Err := none } ::
            geminiStreamEmit none rest (.decodeErr m) from rfl]
        rw [countTerminal_cons_nonterminal hnt]
        exact ih2

lemma gemini_cancel_fires :
    ∀ (vals : List GemVal) (ending : GemEnd) (k : Nat),
      k ≤ vals.length →
      geminiStreamEmit (some k) vals ending =
        (vals.take k).map gemValChunk ++ [ctxErrChunk] := by
  intro vals
  induction vals with
  | nil =>
      intro ending k hk
      have hk0 : k = 0 := Nat.le_zero.1 hk
      subst hk0
      cases ending <;> rfl
  | cons v rest ih =>
      intro ending k hk
      cases k with
      | zero => rfl
      | succ j =>
          rw [show geminiStreamEmit (some (j + 1)) (v :: rest) ending =
            { Text := v.text, Done := false,
              PromptTokens := v.promptTokenCount,
              OutputTokens := v.candidatesTokenCount, Err := none } ::
              geminiStreamEmit (some j) rest ending from rfl]
          rw [ih ending j (by simpa using hk)]
          rfl

/-- C2 amended: every chunk sequence is finite; no stream ever contains
more than two terminal events.  The Gemini stream always ends with a
terminal chunk (one or two terminal events): when the context is never
observed cancelled it ends with the `Done` chunk — exactly one terminal
event on clean EOF and exactly two on a decode error (an error chunk
immediately followed by the `Done` chunk) — and when cancellation is
observed at the k-th check the stream is the first k value chunks
followed by a single error chunk whose terminal flag is false.  The
OpenAI stream contains at most one terminal chunk, always in final
position, and may close with none (SSE lines exhausted without `[DONE]`
and without a scan error). -/
theorem c2_amended_terminal_events (cancel cancel2 : Option Nat)
    (vals : List GemVal) (ending : GemEnd) (m : String) (k : Nat)
    (lines : List SSELine) (scanErr : Option String) (totPT totOT : Int) :
    (1 ≤ countTerminal (geminiStreamEmit cancel vals ending) ∧
      countTerminal (geminiStreamEmit cancel vals ending) ≤ 2 ∧
      lastIsTerminal (geminiStreamEmit cancel vals ending) = true) ∧
    lastIsDone (geminiStreamEmit none vals ending) = true ∧
    countTerminal (geminiStreamEmit none vals .eof) = 1 ∧
    countTerminal (geminiStreamEmit none vals (.decodeErr m)) = 2 ∧
    (k ≤ vals.length →
      geminiStreamEmit (some k) vals ending =
        (vals.take k).map gemValChunk ++ [ctxErrChunk]) ∧
    (countTerminal (openaiStreamEmit cancel2 lines scanErr totPT totOT) ≤ 1 ∧
      terminalOnlyAtEnd
        (openaiStreamEmit cancel2 lines scanErr totPT totOT) = true) :=
  ⟨gemini_terminality vals cancel ending,
   gemini_nocancel_lastDone vals ending,
   (gemini_nocancel_count vals m).1,
   (gemini_nocancel_count vals m).2,
   gemini_cancel_fires vals ending k,
   openai_terminality lines cancel2 scanErr totPT totOT⟩

/-- The decoded value used by the C2 witness. -/
def gemValW : GemVal :=
  { text := "hel", promptTokenCount := 4, candidatesTokenCount := 2 }

theorem c2_witness :
    (1 ≤ [gemValW].length) ∧
    geminiStreamEmit (some 1) [gemValW] .eof =
      ([gemValW].take 1).map gemValChunk ++ [ctxErrChunk] ∧
    countTerminal (geminiStreamEmit none [gemValW] .eof) = 1 :=
  ⟨by decide,
   (c2_amended_terminal_events (some 1) none [gemValW] .eof "m" 1 []
     none 0 0).2.2.2.2.1 (by decide),
   (c2_amended_terminal_events (some 1) none [gemValW] .eof "m" 1 []
     none 0 0).2.2.1⟩

/-! ## Cache-lookup metrics (pkg/metrics/metrics.go and the handler's
cache paths in pkg/proxy/handler.go) -/

/-- The cache-related metrics state: the two Prometheus counters, the
package-level float tallies, and the ratio gauge (floats modelled as
rationals; counter increments by 1 are exact). -/
structure Metrics where
  cacheLookupsTotal : Nat
  cacheHitsTotal : Nat
  totalHits : ℚ
  totalLookups : ℚ
  cacheHitRatio : ℚ
deriving DecidableEq

/-- All counters and gauges start at zero. -/
def initialMetrics : Metrics :=
  { cacheLookupsTotal := 0
    cacheHitsTotal := 0
    totalHits := 0
    totalLookups := 0
    cacheHitRatio := 0 }

/-- The first two lines of `RecordCacheLookup`:
`CacheLookupsTotal.Inc()` and `totalLookups++`. -/
def recordIncLookups (m : Metrics) : Metrics :=
  { m with
    cacheLookupsTotal := m.cacheLookupsTotal + 1
    totalLookups := m.totalLookups + 1 }

/-- The hit branch of `RecordCacheLookup`: `CacheHitsTotal.Inc()` and
`totalHits++`. -/
def recordIncHits (m : Metrics) (hit : Bool) : Metrics :=
  if hit then
    { m with
      cacheHitsTotal := m.cacheHitsTotal + 1
      totalHits := m.totalHits + 1 }
  else
    m

/-- The ratio-gauge update of `RecordCacheLookup`. -/
def recordUpdateRatio (m : Metrics) : Metrics :=
  if m.totalLookups > 0 then
    { m with cacheHitRatio := m.totalHits / m.totalLookups }
  else
    m

/-- Go `RecordCacheLookup`. -/
def RecordCacheLookup (m : Metrics) (hit : Bool) : Metrics :=
  recordUpdateRatio (recordIncHits (recordIncLookups m) hit)

/-- One semantic-cache lookup as performed by the handler (`Infer` and
`InferStream` are identical here): a direct `CacheLookupsTotal.Inc()`
before the lookup, then `RecordCacheLookup(hit)` afterwards. -/
def handlerCacheLookup (m : Metrics) (hit : Bool) : Metrics :=
  RecordCacheLookup
    { m with cacheLookupsTotal := m.cacheLookupsTotal + 1 } hit

/-- The metrics state after a sequence of handler cache lookups with the
given hit results. -/
def runLookups (m : Metrics) (hits : List Bool) : Metrics :=
  hits.foldl handlerCacheLookup m

lemma handlerCacheLookup_eq (m : Metrics) (hit : Bool) :
    handlerCacheLookup m hit =
      { cacheLookupsTotal := m.cacheLookupsTotal + 2
        cacheHitsTotal := m.cacheHitsTotal + (if hit then 1 else 0)
        totalHits := m.totalHits + (if hit then 1 else 0)
        totalLookups := m.totalLookups + 1
        cacheHitRatio :=
          if m.totalLookups + 1 > 0 then
            (m.totalHits + (if hit then 1 else 0)) / (m.totalLookups + 1)
          else
            m.cacheHitRatio } := by
  cases hit with
  | true =>
      rw [handlerCacheLookup, RecordCacheLookup, recordIncLookups,
        recordIncHits, if_pos rfl, recordUpdateRatio]
      by_cases hpos : m.totalLookups + 1 > 0
      · rw [if_pos hpos, if_pos hpos]
        rfl
      · rw [if_neg hpos, if_neg hpos]
        rfl
  | false =>
      rw [handlerCacheLookup, RecordCacheLookup, recordIncLookups,
        recordIncHits, if_neg (by simp), recordUpdateRatio]
      by_cases hpos : m.totalLookups + 1 > 0
      · rw [if_pos hpos, if_pos hpos]
        simp
      · rw [if_neg hpos, if_neg hpos]
        simp

lemma runLookups_fields (hits : List Bool) :
    ∀ m : Metrics, 0 ≤ m.totalLookups →
      (runLookups m hits).cacheLookupsTotal =
        m.cacheLookupsTotal + 2 * hits.length ∧
      (runLookups m hits).cacheHitsTotal =
        m.cacheHitsTotal + hits.count true ∧
      (runLookups m hits).totalLookups =
        m.totalLookups + (hits.length : ℚ) ∧
      (runLookups m hits).totalHits =
        m.totalHits + (hits.count true : ℚ) ∧
      (hits ≠ [] →
        (runLookups m hits).cacheHitRatio =
          (m.totalHits + (hits.count true : ℚ)) /
            (m.totalLookups + (hits.length : ℚ))) := by
  induction hits with
  | nil =>
      intro m hm
      refine ⟨by simp [runLookups], by simp [runLookups],
        by simp [runLookups], by simp [runLookups],
        fun h => absurd rfl h⟩
  | cons hit rest ih =>
      intro m hm
      have hstep := handlerCacheLookup_eq m hit
      have hm2 : (0 : ℚ) ≤ (handlerCacheLookup m hit).totalLookups := by
        rw [hstep]
        dsimp only
        linarith
      obtain ⟨ih1, ih2, ih3, ih4, ih5⟩ := ih (handlerCacheLookup m hit) hm2
      have hrun : runLookups m (hit :: rest) =
          runLookups (handlerCacheLookup m hit) rest := rfl
      have hcount : (hit :: rest).count true =
          (if hit then 1 else 0) + rest.count true := by
        cases hit <;> simp [List.count_cons] <;> omega
      refine ⟨?_, ?_, ?_, ?_, ?_⟩
      · rw [hrun, ih1, hstep]
        dsimp only
        simp [List.length_cons]
        omega
      · rw [hrun, ih2, hstep, hcount]
        dsimp only
        omega
      · rw [hrun, ih3, hstep]
        dsimp only
        rw [List.length_cons]
        push_cast
        ring
      · rw [hrun, ih4, hstep, hcount]
        dsimp only
        push_cast
        ring
      · intro hne0
        rcases List.eq_nil_or_concat rest with hrest | hne
        · subst hrest
          rw [hrun, show runLookups (handlerCacheLookup m hit) [] =
            handlerCacheLookup m hit from rfl, hstep]
          dsimp only
          rw [if_pos (by linarith)]
          rw [hcount]
          push_cast
          norm_num
        · have hrne : rest ≠ [] := by
            obtain ⟨l2, a, rfl⟩ := hne
            simp
          rw [hrun, ih5 hrne, hstep, hcount, List.length_cons]
          dsimp only
          push_cast
          ring_nf

/-- C10: over any sequence of handler cache lookups from a fresh
metrics state, `cache_lookups_total` is bumped exactly twice per lookup
(once in the handler, once in `RecordCacheLookup`) and therefore equals
twice the number of lookups; `cache_hits_total` is bumped at most once
per lookup and equals the number of hits, so
`cache_hits_total ≤ cache_lookups_total`; the ratio gauge is computed
from the separate once-incremented tallies `totalHits`/`totalLookups`,
equalling hits over actual lookups. -/
theorem c10_lookup_double_count (hits : List Bool) :
    (runLookups initialMetrics hits).cacheLookupsTotal =
      2 * hits.length ∧
    (runLookups initialMetrics hits).cacheHitsTotal = hits.count true ∧
    (runLookups initialMetrics hits).cacheHitsTotal ≤
      (runLookups initialMetrics hits).cacheLookupsTotal ∧
    (runLookups initialMetrics hits).totalLookups = (hits.length : ℚ) ∧
    (runLookups initialMetrics hits).totalHits = (hits.count true : ℚ) ∧
    (runLookups initialMetrics hits).cacheHitRatio =
      (if hits.length = 0 then 0
       else (hits.count true : ℚ) / (hits.length : ℚ)) := by
  obtain ⟨h1, h2, h3, h4, h5⟩ :=
    runLookups_fields hits initialMetrics le_rfl
  have hcl : (runLookups initialMetrics hits).cacheLookupsTotal =
      2 * hits.length := by
    rw [h1]
    simp [initialMetrics]
  have hch : (runLookups initialMetrics hits).cacheHitsTotal =
      hits.count true := by
    rw [h2]
    simp [initialMetrics]
  refine ⟨hcl, hch, ?_, ?_, ?_, ?_⟩
  · rw [hcl, hch]
    have := List.count_le_length true hits
    omega
  · rw [h3]; simp [initialMetrics]
  · rw [h4]; simp [initialMetrics]
  · rcases List.eq_nil_or_concat hits with hnil | hne
    · subst hnil
      simp [runLookups, initialMetrics]
    · have hr : hits ≠ [] := by
        obtain ⟨l2, a, rfl⟩ := hne
        simp
      rw [h5 hr]
      rw [if_neg (by simpa using hr)]
      simp [initialMetrics]

end LLMProxy
